import Mathlib

/-!
Verification development for the fast neuron IO core (`neurom/fst/_io.py`):
section extraction from an SWC-style data block, gap resolution, neurite
tree building, and the neurite point sequence.

The data block is a list of rows with columns (x, y, z, r, type, id, pid)
in that order, mirroring the internal column layout of the original
(`COLS.X = 0 .. COLS.P = 6`).  Coordinates are carried as integers; the
original only copies them, never computes with them, so the choice of the
scalar type does not affect any of the properties proved here.

Dictionary and list lookups that can raise `KeyError`/`IndexError` in the
original are modelled with `Option`: a `none` result corresponds to the
original raising an exception.
-/

/-- One row of the data block: columns (x, y, z, r, type, id, parent-id). -/
structure Row where
  x : Int
  y : Int
  z : Int
  r : Int
  rtype : Int
  id : Int
  pid : Int
deriving Repr, DecidableEq

/-- A section descriptor, mirroring the local `Section` class of
`extract_sections`: point-index list `ids`, raw type tag `ntype`,
parent section index `pid` (defaulting to `[]`, `0`, `-1`). -/
structure Sec where
  ids : List Int
  ntype : Int
  pid : Int
deriving Repr, DecidableEq

instance : Inhabited Sec := ⟨⟨[], 0, -1⟩⟩

/-- The default `Section()` of the original. -/
def sec0 : Sec := ⟨[], 0, -1⟩

/-- Lookup of a raw SWC id among the rows, later rows overriding earlier
ones (the original fills a dict in table order, so later assignments win).
`n` is the table position of the head row. -/
def idMapRows (k : Int) : List Row → Nat → Option Int
  | [], _ => none
  | r :: rest, n =>
    match idMapRows k rest (n + 1) with
    | some v => some v
    | none => if r.id = k then some (Int.ofNat n) else none

/-- The `id_map` dict of `extract_sections`: seeded with `{-1: -1}`, then
one entry per row mapping its raw id to its table position. -/
def idMapFun (db : List Row) (k : Int) : Option Int :=
  match idMapRows k db 0 with
  | some v => some v
  | none => if k = -1 then some (-1) else none

/-- Number of rows whose parent id equals `k` (the `n_children` counter of
`_section_end_points`; a missing key counts as 0 via the defaultdict). -/
def nChildren (db : List Row) (k : Int) : Nat :=
  (db.filter (fun r => r.pid = k)).length

/-- Helper for `_section_end_points`: positions whose row has a child
count different from 1, with `n` the position of the head row. -/
def endPtsAux (db : List Row) : List Row → Nat → List Int
  | [], _ => []
  | r :: rest, n =>
    if nChildren db r.id ≠ 1 then Int.ofNat n :: endPtsAux db rest (n + 1)
    else endPtsAux db rest (n + 1)

/-- `_section_end_points`: the set (here: list, only membership matters) of
table positions whose point has no children or more than one. -/
def secEndPts0 (db : List Row) : List Int :=
  endPtsAux db db 0

/-- Association-list lookup where the most recently added (front) binding
wins, modelling the `parent_section` dict updated during the scan. -/
def lookupAL (l : List (Int × Int)) (k : Int) : Option Int :=
  (l.find? (fun p => p.1 = k)).map (fun p => p.2)

/-- The mutable state of the linear scan of `extract_sections`:
closed sections (`done`), the current section (`curr`, which the original
keeps as the last element of `_sections`), the `parent_section` dict
(`ps`), the `_gap_sections` set (`gaps`) and the grown end-point set
(`endPts`). -/
structure ScanState where
  done : List Sec
  curr : Sec
  ps : List (Int × Int)
  gaps : List Int
  endPts : List Int
deriving Repr, DecidableEq

/-- One iteration of the scan loop body of `extract_sections`, after the
two `id_map` lookups produced `rid` (the row position) and `pid` (the
parent position); `rtype` is the row's raw type tag. -/
def scanCore (rid pid rtype : Int) (st : ScanState) : ScanState :=
  let c1 := if st.curr.ids = [] then { st.curr with ids := [pid], ntype := rtype }
            else st.curr
  let gap := pid ≠ c1.ids.getLastD 0
  let eps := if gap then rid :: st.endPts else st.endPts
  let c2 := if gap then c1 else { c1 with ids := c1.ids ++ [rid] }
  if rid ∈ eps then
    if gap then
      { done := st.done ++ [c2],
        curr := ⟨[pid, rid], rtype, -1⟩,
        ps := (c2.ids.getLastD 0, (st.done.length : Int)) :: st.ps,
        gaps := (st.done.length : Int) :: st.gaps,
        endPts := eps }
    else
      { done := st.done ++ [c2],
        curr := sec0,
        ps := (c2.ids.getLastD 0, (st.done.length : Int)) :: st.ps,
        gaps := st.gaps,
        endPts := eps }
  else
    { st with curr := c2, endPts := eps }

/-- One iteration of the scan loop including the two `id_map` dict lookups
(`none` models a `KeyError` on an unresolvable parent id). -/
def scanStep (m : Int → Option Int) (st : ScanState) (row : Row) : Option ScanState := do
  let rid ← m row.id
  let pid ← m row.pid
  pure (scanCore rid pid row.rtype st)

/-- The scan state right before the loop: `_sections = [Section()]`,
`parent_section = {-1: -1}`, no gap sections, initial end-point set. -/
def initState (db : List Row) : ScanState :=
  { done := [], curr := sec0, ps := [(-1, -1)], gaps := [], endPts := secEndPts0 db }

/-- The whole linear scan of `extract_sections`. -/
def runScan (db : List Row) : Option ScanState :=
  db.foldlM (scanStep (idMapFun db)) (initState db)

/-- Python-style list index resolution: non-negative indices must be in
range, negative indices count from the end; `none` models `IndexError`. -/
def pyIdx (n : Nat) (i : Int) : Option Nat :=
  if 0 ≤ i then (if i.toNat < n then some i.toNat else none)
  else (if (-i).toNat ≤ n then some (n - (-i).toNat) else none)

/-- `_merge_sections(sec_a, sec_b)` acting on the section list, with `p`
the resolved position of `sec_a` and `j` the position of `sec_b`.  When
`p = j` the original mutates a single object field by field, which leaves
`ids = []` and `pid = -1` on that object. -/
def resolveMergeAt (secs : List Sec) (p j : Nat) : List Sec :=
  if p = j then
    let a := secs.getD j sec0
    secs.set j ⟨[], a.ntype, -1⟩
  else
    let a := secs.getD p sec0
    let b := secs.getD j sec0
    (secs.set p ⟨[], a.ntype, -1⟩).set j ⟨a.ids ++ b.ids.tail, a.ntype, a.pid⟩

/-- One iteration of the final loop of `extract_sections` over section
position `j`: resolve the parent section from the first point id (a
missing `parent_section` key is a `KeyError`, modelled as `none`), then
merge if the parent is a recorded gap section. -/
def resolveStep (ps : List (Int × Int)) (gaps : List Int) (secs : List Sec) (j : Nat) :
    Option (List Sec) := do
  let s := secs.getD j sec0
  let s ←
    if s.ids = [] then pure s
    else do
      let p ← lookupAL ps (s.ids.headD 0)
      pure { s with pid := p }
  let secs := secs.set j s
  if s.pid ∈ gaps then do
    let p ← pyIdx secs.length s.pid
    pure (resolveMergeAt secs p j)
  else
    pure secs

/-- `extract_sections`: the linear scan followed by parent resolution and
gap-section merging over the list `_sections = done ++ [curr]`. -/
def extract_sections (db : List Row) : Option (List Sec) := do
  let st ← runScan db
  let secs := st.done ++ [st.curr]
  (List.range secs.length).foldlM (resolveStep st.ps st.gaps) secs

/-- `POINT_TYPE.SOMA` of the data format. -/
def SOMA : Int := 1

/-- Helper for `neurite_trunks`, scanning the section list from position
`i`.  A parent index beyond the list raises `IndexError` in the original
(`none` here); the `pid > -1` guard short-circuits before the access,
as in the original conjunction. -/
def trunksAux (secs : List Sec) : Nat → List Sec → Option (List Nat)
  | _, [] => some []
  | i, s :: rest =>
    if s.pid > -1 then
      match secs.get? s.pid.toNat with
      | none => none
      | some par =>
        if par.ntype = SOMA ∧ s.ntype ≠ SOMA then do
          let r ← trunksAux secs (i + 1) rest
          pure (i :: r)
        else trunksAux secs (i + 1) rest
    else trunksAux secs (i + 1) rest

/-- `SecDataWrapper.neurite_trunks`: positions of sections whose parent
section is soma-typed while they are not themselves soma-typed. -/
def neurite_trunks (secs : List Sec) : Option (List Nat) :=
  trunksAux secs 0 secs

/-- A tree node of the neurite forest.  The original `Tree` carries the
section's row sub-array as `value` and a child list filled by `add_child`
in ascending section order; the derived type tag and section id
annotations play no role in the properties below and are omitted. -/
inductive PTree where
  | node (value : List Row) (children : List PTree)

/-- The row sub-array owned by a tree node. -/
def PTree.value : PTree → List Row
  | .node v _ => v

/-- The children of a tree node, in attachment order. -/
def PTree.children : PTree → List PTree
  | .node _ c => c

/-- Row of the data block at a (possibly negative, Python-style) index.
Out-of-range fancy indexing raises `IndexError` in the original; it never
occurs on the inputs considered here and is modelled by a default row. -/
def rowAtD (db : List Row) (i : Int) : Row :=
  match pyIdx db.length i with
  | some n => db.getD n ⟨0, 0, 0, 0, 0, 0, 0⟩
  | none => ⟨0, 0, 0, 0, 0, 0, 0⟩

/-- `rdw.data_block[sec.ids]`: the rows selected by a section. -/
def rowsOf (db : List Row) (ids : List Int) : List Row :=
  ids.map (rowAtD db)

/-- Children positions of section `i` under the wiring pass of
`make_neurites`: section `j` is attached to its parent `i = secs[j].pid`
exactly when `secs[j].pid ≥ start`, in ascending `j` (loop) order. -/
def childIdxs (secs : List Sec) (start : Nat) : Nat → List Sec → Nat → List Nat
  | _, [], _ => []
  | i, s :: rest, j =>
    if s.pid = (i : Int) ∧ s.pid ≥ (start : Int) then
      j :: childIdxs secs start i rest (j + 1)
    else childIdxs secs start i rest (j + 1)

/-- All children positions of section `i`. -/
def childrenOf (secs : List Sec) (start i : Nat) : List Nat :=
  childIdxs secs start i secs 0

/-- The tree node of section `i` with its full subtree, built functionally
with a recursion-depth budget `fuel`; `fuel = secs.length` suffices for
any acyclic parent relation, matching the pointer structure the original
builds by mutation. -/
def buildNode (db : List Row) (secs : List Sec) (start : Nat) : Nat → Nat → PTree
  | 0, i => .node (rowsOf db (secs.getD i sec0).ids) []
  | fuel + 1, i =>
    .node (rowsOf db (secs.getD i sec0).ids)
      ((childrenOf secs start i).map (buildNode db secs start fuel))

/-- `make_neurites` (without the optional per-format post action): the
trunk roots wrapped for neurites, and one node per section.  With no
trunks it returns two empty sequences before building anything. -/
def make_neurites (db : List Row) (secs : List Sec) : Option (List PTree × List PTree) := do
  let trunks ← neurite_trunks secs
  match trunks with
  | [] => pure ([], [])
  | t0 :: rest =>
    let start := rest.foldl Nat.min t0
    let fuel := secs.length
    let nodes := (List.range secs.length).map (buildNode db secs start fuel)
    let neur := trunks.map (buildNode db secs start fuel)
    pure (neur, nodes)

/-- `_remove_soma_initial_point`, the SWC post action: drop the root
node's first row when it is soma-typed.  (On an empty value the original
would raise `IndexError`; trunk values are never empty.) -/
def remove_soma_initial_point : PTree → PTree
  | .node [] cs => .node [] cs
  | .node (v0 :: rest) cs =>
    if v0.rtype = SOMA then .node rest cs else .node (v0 :: rest) cs

mutual

/-- Modelled from the spec: `ipreorder` of `neurom.core.tree` (not under
`src/`) — pre-order traversal of a tree, parent before children, children
in attachment order. -/
def preorder : PTree → List PTree
  | .node v cs => .node v cs :: preorderList cs

/-- Modelled from the spec: pre-order traversal of a node list in order. -/
def preorderList : List PTree → List PTree
  | [] => []
  | t :: ts => preorder t ++ preorderList ts

end

/-- A point restricted to the first four columns `[x, y, z, radius]`. -/
def take4 (r : Row) : Int × Int × Int × Int :=
  (r.x, r.y, r.z, r.r)

/-- The point-sequence computation of `Neurite.points`: every pre-order
node contributes its rows but the first, restricted to the first four
columns, and the root's first row is prepended (on an empty root value
the original raises `IndexError`, modelled as `none`). -/
def neuritePointsOf (t : PTree) : Option (List (Int × Int × Int × Int)) :=
  match t.value with
  | [] => none
  | v0 :: _ =>
    some (take4 v0 :: (preorder t).flatMap (fun s => s.value.tail.map take4))

/-- The `Neurite` object: a root node plus the lazily memoized point
cache `_points` (initially `None`). -/
structure NeuriteObj where
  root_node : PTree
  pointsCache : Option (List (Int × Int × Int × Int))

/-- `Neurite.__init__`: wrap a root node, cache empty. -/
def neuriteInit (t : PTree) : NeuriteObj :=
  ⟨t, none⟩

/-- The `Neurite.points` property access: compute and store the point
array on first access, return the cached value afterwards.  The result
pairs the returned value with the object state after the access; `none`
models the `IndexError` raised when the computation fails. -/
def pointsAccess (n : NeuriteObj) :
    Option (List (Int × Int × Int × Int) × NeuriteObj) :=
  match n.pointsCache with
  | some v => some (v, n)
  | none =>
    match neuritePointsOf n.root_node with
    | none => none
    | some v => some (v, { n with pointsCache := some v })

/-- The neurite point sequence as the specification words it: concatenate,
in pre-order over the subtree, each node's rows restricted to the first
four columns, where the trunk contributes all of its points and every
other node contributes all of its points except the first. -/
def pointsSpec (t : PTree) : List (Int × Int × Int × Int) :=
  match preorder t with
  | [] => []
  | root :: rest =>
    root.value.map take4 ++ rest.flatMap (fun s => s.value.tail.map take4)

/-- A default row (used only for out-of-range reads that never occur on
the inputs considered). -/
def row0 : Row := ⟨0, 0, 0, 0, 0, 0, 0⟩

/-- The rows have pairwise distinct ids. -/
def UniqueIds (db : List Row) : Prop :=
  ∀ i, i < db.length → ∀ j, j < db.length →
    (db.getD i row0).id = (db.getD j row0).id → i = j

/-- Every row's parent is either the no-parent sentinel or the id of an
earlier row (parents precede their children in table order). -/
def ParentsPrecede (db : List Row) : Prop :=
  ∀ i, i < db.length →
    (db.getD i row0).pid = -1 ∨
      ∃ j, j < i ∧ (db.getD j row0).id = (db.getD i row0).pid

/-- No row uses the reserved no-parent sentinel as its own id. -/
def PosIds (db : List Row) : Prop :=
  ∀ i, i < db.length → (db.getD i row0).id ≠ -1

instance (db : List Row) : Decidable (UniqueIds db) :=
  inferInstanceAs (Decidable (∀ i, i < db.length → ∀ j, j < db.length →
    (db.getD i row0).id = (db.getD j row0).id → i = j))

instance (db : List Row) : Decidable (ParentsPrecede db) :=
  inferInstanceAs (Decidable (∀ i, i < db.length →
    (db.getD i row0).pid = -1 ∨
      ∃ j, j < i ∧ (db.getD j row0).id = (db.getD i row0).pid))

instance (db : List Row) : Decidable (PosIds db) :=
  inferInstanceAs (Decidable (∀ i, i < db.length → (db.getD i row0).id ≠ -1))

/-- Example row builder: type tag `t`, raw id `id`, raw parent id `pid`
(the x coordinate is set to the id so rows are distinguishable). -/
def mkRow (t id pid : Int) : Row := ⟨id, 0, 0, 1, t, id, pid⟩

/-- Y-branch table without a soma: a 3-point chain with strictly
sequential parents, then two single-point children of the chain end. -/
def dbY : List Row :=
  [mkRow 3 1 (-1), mkRow 3 2 1, mkRow 3 3 2, mkRow 3 6 3, mkRow 3 7 3]

/-- A table with a discontinuity: chain 1-2-3, then a second child of 1
interleaved (id 5), then the child of 3 (id 6); the last row's parent row
precedes it in table order but is not contiguous with the running
section. -/
def dbG : List Row :=
  [mkRow 3 1 (-1), mkRow 3 2 1, mkRow 3 3 2, mkRow 3 5 1, mkRow 3 6 3]

/-- A soma-only table. -/
def dbS : List Row := [mkRow 1 1 (-1)]

/-- The scan state reached on the soma-only table. -/
def stS : ScanState :=
  { done := [⟨[-1, 0], 1, -1⟩], curr := sec0,
    ps := [(0, 0), (-1, -1)], gaps := [], endPts := [0] }

/-- The sections extracted from the soma-only table. -/
def secsS : List Sec := [⟨[-1, 0], 1, -1⟩, ⟨[], 0, -1⟩]

/-- A soma point with a 2-point neurite chain and a second 1-point
neurite. -/
def dbC2 : List Row :=
  [mkRow 1 1 (-1), mkRow 3 2 1, mkRow 3 3 2, mkRow 3 4 1]

/-- The sections extracted from `dbC2` (the trailing placeholder section
is empty). -/
def secsC2 : List Sec :=
  [⟨[-1, 0], 1, -1⟩, ⟨[0, 1, 2], 3, 0⟩, ⟨[0, 3], 3, 0⟩, ⟨[], 0, -1⟩]

/-- Y-branch hanging off a 2-point soma: soma point 1 has two children
(soma point 2 and trunk point 3), the trunk chain 3-4-5 ends in a branch
point with two single-point children. -/
def dbC9b : List Row :=
  [mkRow 1 1 (-1), mkRow 1 2 1, mkRow 3 3 1, mkRow 3 4 3,
   mkRow 3 5 4, mkRow 3 6 5, mkRow 3 7 5]

/-- The sections extracted from `dbC9b`. -/
def secsC9b : List Sec :=
  [⟨[-1, 0], 1, -1⟩, ⟨[0, 1], 1, 0⟩, ⟨[0, 2, 3, 4], 3, 0⟩,
   ⟨[4, 5], 3, 2⟩, ⟨[4, 6], 3, 2⟩, ⟨[], 0, -1⟩]

/-- The scan state reached on `dbG` after its first three rows. -/
def stG3 : ScanState :=
  { done := [⟨[-1, 0], 3, -1⟩], curr := ⟨[0, 1, 2], 3, -1⟩,
    ps := [(0, 0), (-1, -1)], gaps := [], endPts := [0, 3, 4] }

/-- The scan state reached on `dbG` after its fourth row (the gap row). -/
def stG4 : ScanState :=
  { done := [⟨[-1, 0], 3, -1⟩, ⟨[0, 1, 2], 3, -1⟩], curr := ⟨[0, 3], 3, -1⟩,
    ps := [(2, 1), (0, 0), (-1, -1)], gaps := [1], endPts := [3, 0, 3, 4] }

/-- A small two-node tree used as a concrete witness input. -/
def trW : PTree :=
  .node [mkRow 3 1 (-1), mkRow 3 2 1] [.node [mkRow 3 2 1, mkRow 3 3 2] []]

/-- The point sequence of `trW`. -/
def vW : List (Int × Int × Int × Int) :=
  [(1, 0, 0, 1), (2, 0, 0, 1), (3, 0, 0, 1)]

/-- The neurite object wrapping `trW` after its cache is filled. -/
def nW : NeuriteObj := ⟨trW, some vW⟩

/-- A concrete section list for the merge-step witness. -/
def secsW1 : List Sec := [⟨[0, 1, 2], 3, 0⟩, ⟨[2, 4], 3, -1⟩]

/-- A concrete parent-section map for the merge-step witness. -/
def psW1 : List (Int × Int) := [(2, 0), (-1, -1)]

/-- A concrete gap-section set for the merge-step witness. -/
def gapsW1 : List Int := [0]

/-! ### Generic helper lemmas -/

theorem foldlM_option_inv {α σ : Type} {f : σ → α → Option σ} {P : σ → Prop}
    (hstep : ∀ s a s', f s a = some s' → P s → P s') :
    ∀ (l : List α) (s s' : σ), List.foldlM f s l = some s' → P s → P s' := by
  intro l
  induction l with
  | nil =>
    intro s s' h hP
    simp [List.foldlM] at h
    exact h ▸ hP
  | cons a l ih =>
    intro s s' h hP
    rw [List.foldlM] at h
    cases hfa : f s a with
    | none => rw [hfa] at h; simp at h
    | some s2 =>
      rw [hfa] at h
      simp at h
      exact ih s2 s' h (hstep s a s2 hfa hP)

theorem foldlM_option_append {α σ : Type} (f : σ → α → Option σ) (l : List α) (a : α) :
    ∀ s, List.foldlM f s (l ++ [a]) = (List.foldlM f s l).bind (fun s1 => f s1 a) := by
  induction l with
  | nil => intro s; simp [List.foldlM]
  | cons b l ih =>
    intro s
    rw [List.cons_append, List.foldlM, List.foldlM]
    cases hfb : f s b <;> simp [hfb, ih]

theorem getD_set_self {α : Type} (l : List α) (j : Nat) (a d : α) (h : j < l.length) :
    (l.set j a).getD j d = a := by
  induction l generalizing j with
  | nil => simp at h
  | cons x xs ih =>
    cases j with
    | zero => simp [List.set]
    | succ j => simpa [List.set] using ih j (by simpa using h)

theorem getD_set_ne {α : Type} (l : List α) (i j : Nat) (a d : α) (h : i ≠ j) :
    (l.set i a).getD j d = l.getD j d := by
  induction l generalizing i j with
  | nil => rfl
  | cons x xs ih =>
    cases i with
    | zero =>
      cases j with
      | zero => exact absurd rfl h
      | succ j => simp [List.set]
    | succ i =>
      cases j with
      | zero => simp [List.set]
      | succ j => simpa [List.set] using ih i j (fun hh => h (by rw [hh]))

theorem getD_mem {α : Type} (l : List α) (j : Nat) (d : α) (h : j < l.length) :
    l.getD j d ∈ l := by
  induction l generalizing j with
  | nil => simp at h
  | cons x xs ih =>
    cases j with
    | zero => simp
    | succ j => exact List.mem_cons_of_mem _ (ih j (by simpa using h))

theorem getD_append_len {α : Type} (l l2 : List α) (a d : α) :
    (l ++ a :: l2).getD l.length d = a := by
  induction l with
  | nil => simp
  | cons x xs ih => simpa using ih

theorem length_filter_lt {α : Type} (p : α → Bool) (l : List α) (x : α)
    (hx : x ∈ l) (hp : p x = false) :
    (l.filter p).length < l.length := by
  induction l with
  | nil => simp at hx
  | cons a t ih =>
    rcases List.mem_cons.mp hx with h | h
    · subst h
      rw [List.filter_cons, hp]
      simpa using Nat.lt_succ_of_le (List.length_filter_le p t)
    · rw [List.filter_cons]
      cases hpa : p a
      · simpa using Nat.lt_succ_of_lt (ih h)
      · simpa using Nat.succ_lt_succ (ih h)


theorem scanStep_some {m : Int → Option Int} {st st' : ScanState} {row : Row}
    (h : scanStep m st row = some st') :
    ∃ rid pid, m row.id = some rid ∧ m row.pid = some pid ∧
      st' = scanCore rid pid row.rtype st := by
  unfold scanStep at h
  cases h1 : m row.id with
  | none => rw [h1] at h; simp at h
  | some rid =>
    cases h2 : m row.pid with
    | none => rw [h1, h2] at h; simp at h
    | some pid =>
      rw [h1, h2] at h
      simp at h
      exact ⟨rid, pid, rfl, rfl, h.symm⟩

theorem scanCore_gap (rid pid t : Int) (st : ScanState)
    (h1 : st.curr.ids ≠ []) (h2 : pid ≠ st.curr.ids.getLastD 0) :
    scanCore rid pid t st =
      { done := st.done ++ [st.curr],
        curr := ⟨[pid, rid], t, -1⟩,
        ps := (st.curr.ids.getLastD 0, (st.done.length : Int)) :: st.ps,
        gaps := (st.done.length : Int) :: st.gaps,
        endPts := rid :: st.endPts } := by
  rw [List.getLastD_eq_getLast?] at h2
  unfold scanCore
  simp [h1, h2, List.getLastD_eq_getLast?]

theorem scanCore_pid_inv (rid pid t : Int) (st : ScanState)
    (hd : ∀ s ∈ st.done, s.pid = -1) (hc : st.curr.pid = -1) :
    (∀ s ∈ (scanCore rid pid t st).done, s.pid = -1) ∧
      (scanCore rid pid t st).curr.pid = -1 := by
  unfold scanCore
  by_cases h1 : st.curr.ids = [] <;> simp only [h1, if_true, if_false, ite_true, ite_false] <;>
    split <;> try split
  all_goals simp_all [List.mem_append]
  all_goals
    try constructor
  all_goals
    first
    | rfl
    | (intro s hs
       rcases hs with hs | rfl
       · exact hd s hs
       · first | rfl | exact hc)

theorem scanCore_endPts_mono (rid pid t x : Int) (st : ScanState)
    (h : x ∈ st.endPts) : x ∈ (scanCore rid pid t st).endPts := by
  unfold scanCore
  by_cases h1 : st.curr.ids = [] <;> simp only [h1, if_true, if_false, ite_true, ite_false] <;>
    split <;> try split
  all_goals simp_all

theorem scanCore_gaps_cases (rid pid t : Int) (st : ScanState) :
    (scanCore rid pid t st).gaps = st.gaps ∨
      (scanCore rid pid t st).gaps = (st.done.length : Int) :: st.gaps := by
  unfold scanCore
  by_cases h1 : st.curr.ids = [] <;> simp only [h1, if_true, if_false, ite_true, ite_false] <;>
    split <;> try split
  all_goals simp_all

theorem scanCore_close_curr (rid pid t : Int) (st : ScanState) (h : rid ∈ st.endPts) :
    (scanCore rid pid t st).curr = sec0 ∨
      (scanCore rid pid t st).gaps = (st.done.length : Int) :: st.gaps := by
  unfold scanCore
  by_cases h1 : st.curr.ids = [] <;> simp only [h1, if_true, if_false, ite_true, ite_false] <;>
    split <;> try split
  all_goals simp_all

theorem scanCore_done_succ (rid pid t : Int) (st : ScanState) (h : rid ∈ st.endPts) :
    (scanCore rid pid t st).done.length = st.done.length + 1 := by
  unfold scanCore
  by_cases h1 : st.curr.ids = [] <;> simp only [h1, if_true, if_false, ite_true, ite_false] <;>
    split <;> try split
  all_goals simp_all

theorem getD_of_lt {α : Type} (l : List α) (i : Nat) (d : α) (h : i < l.length) :
    l.getD i d = l[i] := by
  induction l generalizing i with
  | nil => simp at h
  | cons x xs ih =>
    cases i with
    | zero => simp
    | succ i => simpa using ih i (by simpa using h)

theorem trunksAux_mem (secs : List Sec) :
    ∀ (l : List Sec) (i : Nat) (tks : List Nat), trunksAux secs i l = some tks →
      ∀ j ∈ tks, ∃ k, k < l.length ∧ j = i + k ∧ (l.getD k sec0).pid > -1 := by
  intro l
  induction l with
  | nil =>
    intro i tks h j hj
    simp [trunksAux] at h
    subst h
    simp at hj
  | cons s rest ih =>
    intro i tks h j hj
    unfold trunksAux at h
    by_cases hp : s.pid > -1
    · rw [if_pos hp] at h
      cases hg : secs.get? s.pid.toNat with
      | none => rw [hg] at h; simp at h
      | some par =>
        rw [hg] at h
        dsimp only at h
        by_cases hcond : par.ntype = SOMA ∧ s.ntype ≠ SOMA
        · rw [if_pos hcond] at h
          cases hr : trunksAux secs (i + 1) rest with
          | none => rw [hr] at h; simp at h
          | some r =>
            rw [hr] at h
            simp at h
            subst h
            rcases List.mem_cons.mp hj with rfl | hj2
            · exact ⟨0, by simp, by simp, by simpa using hp⟩
            · obtain ⟨k, hk, hjk, hpk⟩ := ih (i + 1) r hr j hj2
              refine ⟨k + 1, by simpa using hk, by omega, by simpa using hpk⟩
        · rw [if_neg hcond] at h
          obtain ⟨k, hk, hjk, hpk⟩ := ih (i + 1) tks h j hj
          refine ⟨k + 1, by simpa using hk, by omega, by simpa using hpk⟩
    · rw [if_neg hp] at h
      obtain ⟨k, hk, hjk, hpk⟩ := ih (i + 1) tks h j hj
      refine ⟨k + 1, by simpa using hk, by omega, by simpa using hpk⟩

theorem resolveStep_nil_gaps (ps : List (Int × Int)) (secs out : List Sec) (j : Nat)
    (h : resolveStep ps [] secs j = some out) :
    ∃ s2, out = secs.set j s2 ∧ ((secs.getD j sec0).ids = [] → s2 = secs.getD j sec0) := by
  unfold resolveStep at h
  by_cases hids : (secs.getD j sec0).ids = []
  · rw [if_pos hids] at h
    simp at h
    exact ⟨secs.getD j sec0, by simpa using h.symm, fun _ => rfl⟩
  · rw [if_neg hids] at h
    cases hlk : lookupAL ps ((secs.getD j sec0).ids.headD 0) with
    | none => rw [hlk] at h; simp at h
    | some p =>
      rw [hlk] at h
      simp at h
      exact ⟨{ secs.getD j sec0 with pid := p }, by simpa using h.symm, fun hh => absurd hh hids⟩

theorem getD_cases {α : Type} (l : List α) (j : Nat) (d : α) :
    l.getD j d ∈ l ∨ l.getD j d = d := by
  rcases Nat.lt_or_ge j l.length with h | h
  · exact Or.inl (getD_mem l j d h)
  · exact Or.inr (List.getD_eq_default l d h)

theorem resolveStep_pres_empty_pid (ps : List (Int × Int)) (gaps : List Int)
    (secs out : List Sec) (j : Nat)
    (h : resolveStep ps gaps secs j = some out)
    (hJ : ∀ s ∈ secs, s.ids = [] → s.pid = -1) :
    ∀ s ∈ out, s.ids = [] → s.pid = -1 := by
  unfold resolveStep at h
  have hstage : ∃ s2 : Sec, (s2.ids = [] → s2.pid = -1) ∧
      (if s2.pid ∈ gaps then do
          let p ← pyIdx (secs.set j s2).length s2.pid
          pure (resolveMergeAt (secs.set j s2) p j)
        else pure (secs.set j s2)) = some out := by
    by_cases hids : (secs.getD j sec0).ids = []
    · rw [if_pos hids] at h
      refine ⟨secs.getD j sec0, fun _ => ?_, by simpa using h⟩
      rcases getD_cases secs j sec0 with hm | hd
      · exact hJ _ hm hids
      · rw [hd]; rfl
    · rw [if_neg hids] at h
      cases hlk : lookupAL ps ((secs.getD j sec0).ids.headD 0) with
      | none => rw [hlk] at h; simp at h
      | some p =>
        rw [hlk] at h
        refine ⟨{ secs.getD j sec0 with pid := p }, fun hh => absurd hh hids, by simpa using h⟩
  obtain ⟨s2, hs2, h⟩ := hstage
  have hJ2 : ∀ s ∈ secs.set j s2, s.ids = [] → s.pid = -1 := by
    intro s hs
    rcases List.mem_or_eq_of_mem_set hs with hs | rfl
    · exact hJ s hs
    · exact hs2
  by_cases hg : s2.pid ∈ gaps
  · rw [if_pos hg] at h
    cases hpy : pyIdx (secs.set j s2).length s2.pid with
    | none => rw [hpy] at h; simp at h
    | some p =>
      rw [hpy] at h
      simp at h
      subst h
      unfold resolveMergeAt
      set secs2 := secs.set j s2 with hsecs2
      have ha : ∀ q : Nat, (secs2.getD q sec0).ids = [] → (secs2.getD q sec0).pid = -1 := by
        intro q hq
        rcases getD_cases secs2 q sec0 with hm | hd
        · exact hJ2 _ hm hq
        · rw [hd]; rfl
      by_cases hpj : p = j
      · rw [if_pos hpj]
        intro s hs
        rcases List.mem_or_eq_of_mem_set hs with hs | rfl
        · exact hJ2 s hs
        · intro _; rfl
      · rw [if_neg hpj]
        intro s hs
        rcases List.mem_or_eq_of_mem_set hs with hs | rfl
        · rcases List.mem_or_eq_of_mem_set hs with hs | rfl
          · exact hJ2 s hs
          · intro _; rfl
        · intro hids2
          have : (secs2.getD p sec0).ids = [] := by
            rcases List.append_eq_nil.mp hids2 with ⟨h1, _⟩
            exact h1
          simpa using ha p this
  · rw [if_neg hg] at h
    simp at h
    subst h
    exact hJ2

theorem endPtsAux_mem (db : List Row) :
    ∀ (l : List Row) (n i : Nat), i < l.length →
      nChildren db ((l.getD i row0).id) ≠ 1 →
      Int.ofNat (n + i) ∈ endPtsAux db l n := by
  intro l
  induction l with
  | nil => intro n i hi; simp at hi
  | cons r rest ih =>
    intro n i hi hc
    cases i with
    | zero =>
      unfold endPtsAux
      rw [if_pos (by simpa using hc)]
      simp
    | succ i =>
      have hmem := ih (n + 1) i (by simpa using hi) (by simpa using hc)
      have harith : n + 1 + i = n + (i + 1) := by omega
      rw [harith] at hmem
      unfold endPtsAux
      split
      · exact List.mem_cons_of_mem _ hmem
      · exact hmem

theorem idMapRows_none (k : Int) :
    ∀ (l : List Row) (n : Nat),
      (∀ i, i < l.length → (l.getD i row0).id ≠ k) →
      idMapRows k l n = none := by
  intro l
  induction l with
  | nil => intro n _; rfl
  | cons r rest ih =>
    intro n hno
    unfold idMapRows
    rw [ih (n + 1) (fun i hi => by simpa using hno (i + 1) (by simpa using hi))]
    rw [if_neg (by simpa using hno 0 (by simp))]

theorem idMapRows_at (k : Int) :
    ∀ (l : List Row) (n i : Nat), i < l.length → (l.getD i row0).id = k →
      (∀ j, j < l.length → j ≠ i → (l.getD j row0).id ≠ k) →
      idMapRows k l n = some (Int.ofNat (n + i)) := by
  intro l
  induction l with
  | nil => intro n i hi; simp at hi
  | cons r rest ih =>
    intro n i hi hk hother
    cases i with
    | zero =>
      unfold idMapRows
      rw [idMapRows_none k rest (n + 1)
        (fun q hq => by simpa using hother (q + 1) (by simpa using hq) (by omega))]
      rw [if_pos (by simpa using hk)]
      simp
    | succ i =>
      unfold idMapRows
      rw [ih (n + 1) i (by simpa using hi) (by simpa using hk)
        (fun q hq hqi => by
          have := hother (q + 1) (by simpa using hq) (by omega)
          simpa using this)]
      have harith : n + 1 + i = n + (i + 1) := by omega
      rw [harith]

theorem idMapFun_self (db : List Row) (hu : UniqueIds db) (i : Nat) (hi : i < db.length) :
    idMapFun db ((db.getD i row0).id) = some (Int.ofNat i) := by
  unfold idMapFun
  rw [idMapRows_at ((db.getD i row0).id) db 0 i hi rfl
    (fun j hj hne hj2 => hne (hu j hj i hi hj2))]
  simp

theorem nChildren_last (db : List Row) (hne : db ≠ [])
    (hu : UniqueIds db) (hp : ParentsPrecede db) (hpos : PosIds db) :
    nChildren db ((db.getD (db.length - 1) row0).id) = 0 := by
  have hlen : 0 < db.length := List.length_pos.mpr hne
  unfold nChildren
  rw [List.length_eq_zero, List.filter_eq_nil_iff]
  intro r hr
  simp only [decide_eq_true_eq]
  intro hpid
  obtain ⟨idx, hidx, hrget⟩ := List.mem_iff_getElem.mp hr
  have hgetD : db.getD idx row0 = r := by rw [getD_of_lt db idx row0 hidx, hrget]
  rcases hp idx hidx with h1 | ⟨j, hj, hjid⟩
  · rw [hgetD, hpid] at h1
    exact hpos (db.length - 1) (by omega) h1
  · rw [hgetD, hpid] at hjid
    have hjeq : j = db.length - 1 := hu j (by omega) (db.length - 1) (by omega) hjid
    omega

theorem pyIdx_lt (n : Nat) (i : Int) (pn : Nat) (h : pyIdx n i = some pn) : pn < n := by
  unfold pyIdx at h
  by_cases h0 : 0 ≤ i
  · rw [if_pos h0] at h
    by_cases h1 : i.toNat < n
    · rw [if_pos h1] at h; injection h with h; omega
    · rw [if_neg h1] at h; exact absurd h (by simp)
  · rw [if_neg h0] at h
    by_cases h1 : (-i).toNat ≤ n
    · rw [if_pos h1] at h; injection h with h
      have h2 : 1 ≤ (-i).toNat := by omega
      omega
    · rw [if_neg h1] at h; exact absurd h (by simp)

/-- C4: for every input whose trunk list is empty (for example a table
containing only soma-tagged points), `make_neurites` returns two empty
sequences and raises no error (the result is `some`). -/
theorem C4_empty_trunks (db : List Row) (secs : List Sec)
    (h : neurite_trunks secs = some []) :
    make_neurites db secs = some ([], []) := by
  unfold make_neurites
  rw [h]
  rfl

/-- C4 witness: the soma-only table has no trunks and `make_neurites`
returns two empty sequences on it. -/
theorem C4_empty_trunks_witness :
    neurite_trunks secsS = some [] ∧ extract_sections dbS = some secsS ∧
    make_neurites dbS secsS = some ([], []) :=
  ⟨by decide, by decide, C4_empty_trunks dbS secsS (by decide)⟩

/-- C5: for every neurite with a non-empty root value, the `points`
property equals the concatenation, in pre-order over the subtree, of each
node's rows restricted to the columns x, y, z, radius, where the trunk
contributes all of its points and every other node contributes all of its
points except the first duplicated boundary point. -/
theorem C5_points_preorder (t : PTree) (h : t.value ≠ []) :
    pointsAccess (neuriteInit t) = some (pointsSpec t, ⟨t, some (pointsSpec t)⟩) := by
  have hnp : neuritePointsOf t = some (pointsSpec t) := by
    cases t with
    | node v cs =>
      cases v with
      | nil => exact absurd rfl h
      | cons v0 vrest =>
        simp [neuritePointsOf, pointsSpec, preorder, PTree.value]
  unfold pointsAccess neuriteInit
  rw [hnp]

/-- C5 witness: the pre-order point property evaluated on a concrete
two-node tree. -/
theorem C5_points_preorder_witness :
    trW.value ≠ [] ∧
    pointsAccess (neuriteInit trW) = some (pointsSpec trW, ⟨trW, some (pointsSpec trW)⟩) :=
  ⟨by decide, C5_points_preorder trW (by decide)⟩

/-- C6: computing the `points` property twice yields identical results:
whenever a first access returns a value and an updated neurite object, a
second access returns the same value and the same object, so the memoized
cache is computed at most once. -/
theorem C6_points_idempotent (n : NeuriteObj) (v : List (Int × Int × Int × Int))
    (n2 : NeuriteObj) (h : pointsAccess n = some (v, n2)) :
    pointsAccess n2 = some (v, n2) := by
  unfold pointsAccess at h ⊢
  cases hc : n.pointsCache with
  | some c =>
    rw [hc] at h
    simp at h
    obtain ⟨hv, hn⟩ := h
    rw [← hn, hc, hv]
  | none =>
    rw [hc] at h
    cases hw : neuritePointsOf n.root_node with
    | none => rw [hw] at h; simp at h
    | some w =>
      rw [hw] at h
      simp at h
      obtain ⟨hv, hn⟩ := h
      rw [← hn, hv]

/-- C6 witness: idempotence of the point access on a concrete neurite. -/
theorem C6_points_idempotent_witness :
    pointsAccess (neuriteInit trW) = some (vW, nW) ∧ pointsAccess nW = some (vW, nW) :=
  ⟨rfl, C6_points_idempotent (neuriteInit trW) vW nW rfl⟩

/-- C7 counterexample: on an input with zero points, `extract_sections`
does not yield an empty Section list, refuting the claim as stated. -/
theorem C7_counterexample : extract_sections ([] : List Row) ≠ some [] := by decide

/-- C7 (amended): for an input with zero points, `extract_sections`
yields a one-element list containing exactly the initial placeholder
Section (empty ids, type 0, parent -1), not an empty list. -/
theorem C7_empty_input : extract_sections ([] : List Row) = some [sec0] := by decide

theorem resolveStep_merge (ps : List (Int × Int)) (gaps : List Int)
    (secs : List Sec) (j pn : Nat) (p : Int)
    (hids : (secs.getD j sec0).ids ≠ [])
    (hlk : lookupAL ps ((secs.getD j sec0).ids.headD 0) = some p)
    (hp : p ∈ gaps)
    (hpn : pyIdx secs.length p = some pn) :
    resolveStep ps gaps secs j =
      some (resolveMergeAt (secs.set j { secs.getD j sec0 with pid := p }) pn j) := by
  unfold resolveStep
  rw [if_neg hids, hlk]
  simp [hp, hpn, List.length_set]

/-- C1: for every Section whose resolved parent section is a recorded gap
section, the merge step of the Gap Resolver produces exactly: the current
section's point-id sequence becomes the gap section's ids followed by the
current section's ids with its first (duplicate shared) point dropped;
the current section's type and parent become those of the gap section;
and the gap section is tombstoned with empty ids and parent -1. -/
theorem C1_merge_step (ps : List (Int × Int)) (gaps : List Int) (secs : List Sec)
    (j pn : Nat) (p : Int)
    (hj : j < secs.length)
    (hids : (secs.getD j sec0).ids ≠ [])
    (hlk : lookupAL ps ((secs.getD j sec0).ids.headD 0) = some p)
    (hp : p ∈ gaps)
    (hpn : pyIdx secs.length p = some pn)
    (hne : pn ≠ j) :
    ∃ out, resolveStep ps gaps secs j = some out ∧
      (out.getD j sec0).ids = (secs.getD pn sec0).ids ++ (secs.getD j sec0).ids.tail ∧
      (out.getD j sec0).ntype = (secs.getD pn sec0).ntype ∧
      (out.getD j sec0).pid = (secs.getD pn sec0).pid ∧
      (out.getD pn sec0).ids = [] ∧
      (out.getD pn sec0).pid = -1 ∧
      out.length = secs.length := by
  have hpnlt : pn < secs.length := pyIdx_lt secs.length p pn hpn
  have hmain := resolveStep_merge ps gaps secs j pn p hids hlk hp hpn
  have hout : resolveMergeAt (secs.set j { secs.getD j sec0 with pid := p }) pn j =
      ((secs.set j { secs.getD j sec0 with pid := p }).set pn
        (⟨[], (secs.getD pn sec0).ntype, -1⟩ : Sec)).set j
        (⟨(secs.getD pn sec0).ids ++ (secs.getD j sec0).ids.tail,
         (secs.getD pn sec0).ntype, (secs.getD pn sec0).pid⟩ : Sec) := by
    unfold resolveMergeAt
    rw [if_neg hne]
    dsimp only
    rw [getD_set_ne secs j pn _ sec0 (fun hh => hne hh.symm),
        getD_set_self secs j _ sec0 hj]
  rw [hout] at hmain
  refine ⟨_, hmain, ?_, ?_, ?_, ?_, ?_, ?_⟩
  · rw [getD_set_self _ j _ sec0 (by rw [List.length_set, List.length_set]; exact hj)]
  · rw [getD_set_self _ j _ sec0 (by rw [List.length_set, List.length_set]; exact hj)]
  · rw [getD_set_self _ j _ sec0 (by rw [List.length_set, List.length_set]; exact hj)]
  · rw [getD_set_ne _ j pn _ sec0 (fun hh => hne hh.symm),
        getD_set_self _ pn _ sec0 (by rw [List.length_set]; exact hpnlt)]
  · rw [getD_set_ne _ j pn _ sec0 (fun hh => hne hh.symm),
        getD_set_self _ pn _ sec0 (by rw [List.length_set]; exact hpnlt)]
  · simp [List.length_set]

/-- C1 witness: the merge step evaluated at a concrete section list with
one recorded gap section. -/
theorem C1_merge_step_witness :
    (1 < secsW1.length) ∧ (secsW1.getD 1 sec0).ids ≠ [] ∧
    lookupAL psW1 ((secsW1.getD 1 sec0).ids.headD 0) = some 0 ∧
    (0 : Int) ∈ gapsW1 ∧ pyIdx secsW1.length 0 = some 0 ∧
    ∃ out, resolveStep psW1 gapsW1 secsW1 1 = some out ∧
      (out.getD 1 sec0).ids = (secsW1.getD 0 sec0).ids ++ (secsW1.getD 1 sec0).ids.tail ∧
      (out.getD 1 sec0).ntype = (secsW1.getD 0 sec0).ntype ∧
      (out.getD 1 sec0).pid = (secsW1.getD 0 sec0).pid ∧
      (out.getD 0 sec0).ids = [] ∧
      (out.getD 0 sec0).pid = -1 ∧
      out.length = secsW1.length :=
  ⟨by decide, by decide, by decide, by decide, by decide,
   C1_merge_step psW1 gapsW1 secsW1 1 0 0 (by decide) (by decide) (by decide)
     (by decide) (by decide) (by decide)⟩

/-- C3 (amended): when a point's parent differs from the last point of
the running section, the scan closes the current section, opens a new
section seeded with exactly the two points (gap parent point, point), and
records in the gap set the index of the just-closed section (which is one
less than the index of the newly opened section) - not the newly opened
section itself. -/
theorem C3_gap_step (m : Int → Option Int) (st : ScanState) (row : Row) (rid pid : Int)
    (h1 : m row.id = some rid) (h2 : m row.pid = some pid)
    (h3 : st.curr.ids ≠ []) (h4 : pid ≠ st.curr.ids.getLastD 0) :
    scanStep m st row = some
      { done := st.done ++ [st.curr],
        curr := ⟨[pid, rid], row.rtype, -1⟩,
        ps := (st.curr.ids.getLastD 0, (st.done.length : Int)) :: st.ps,
        gaps := (st.done.length : Int) :: st.gaps,
        endPts := rid :: st.endPts } := by
  unfold scanStep
  rw [h1, h2]
  simp [scanCore_gap rid pid row.rtype st h3 h4]

/-- C3 witness: the gap step evaluated at the concrete mid-scan state of
the discontinuity table. -/
theorem C3_gap_step_witness :
    idMapFun dbG ((dbG.getD 3 row0).id) = some 3 ∧
    idMapFun dbG ((dbG.getD 3 row0).pid) = some 0 ∧
    stG3.curr.ids ≠ [] ∧ (0 : Int) ≠ stG3.curr.ids.getLastD 0 ∧
    scanStep (idMapFun dbG) stG3 (dbG.getD 3 row0) = some stG4 :=
  ⟨by decide, by decide, by decide, by decide, by
    have h := C3_gap_step (idMapFun dbG) stG3 (dbG.getD 3 row0) 3 0
      (by decide) (by decide) (by decide) (by decide)
    exact h.trans (by decide)⟩

/-- C3 counterexample: at the first gap event of the discontinuity table
the newly opened section has index 2 but the gap set records index 1 (the
just-closed section), refuting the claim that the newly opened section is
recorded. -/
theorem C3_counterexample :
    List.foldlM (scanStep (idMapFun dbG)) (initState dbG) (dbG.take 3) = some stG3 ∧
    scanStep (idMapFun dbG) stG3 (dbG.getD 3 row0) = some stG4 ∧
    stG4.done.length = 2 ∧ stG4.curr = ⟨[0, 3], 3, -1⟩ ∧
    stG4.gaps = [1] ∧ ¬((2 : Int) ∈ stG4.gaps) := by decide

theorem extract_empty_pid (db : List Row) (secs : List Sec)
    (h : extract_sections db = some secs) :
    ∀ s ∈ secs, s.ids = [] → s.pid = -1 := by
  unfold extract_sections at h
  cases hrun : runScan db with
  | none => rw [hrun] at h; simp at h
  | some st =>
    rw [hrun] at h
    simp only [Option.some_bind] at h
    have hpidinv : (∀ s ∈ st.done, s.pid = -1) ∧ st.curr.pid = -1 := by
      refine foldlM_option_inv
        (P := fun s => (∀ x ∈ s.done, x.pid = -1) ∧ s.curr.pid = -1)
        ?_ db (initState db) st hrun ?_
      · intro s a s' hf hP
        obtain ⟨rid, pid, _, _, rfl⟩ := scanStep_some hf
        exact scanCore_pid_inv rid pid a.rtype s hP.1 hP.2
      · exact ⟨by simp [initState], rfl⟩
    have hJ0 : ∀ s ∈ st.done ++ [st.curr], s.ids = [] → s.pid = -1 := by
      intro s hs _
      rcases List.mem_append.mp hs with hs | hs
      · exact hpidinv.1 s hs
      · rw [List.mem_singleton.mp hs]; exact hpidinv.2
    exact foldlM_option_inv
      (P := fun l => ∀ s ∈ l, s.ids = [] → s.pid = -1)
      (fun l a l' hf hP => resolveStep_pres_empty_pid st.ps st.gaps l l' a hf hP)
      _ _ secs h hJ0

/-- C2 (amended): no tombstoned section is wired into any neurite tree:
every trunk returned by `neurite_trunks`, and every section whose parent
index is non-negative (the condition under which `make_neurites` attaches
its node as a child), has a non-empty point-id sequence. -/
theorem C2_no_tombstone_in_trees (db : List Row) (secs : List Sec) (tks : List Nat)
    (h1 : extract_sections db = some secs) (h2 : neurite_trunks secs = some tks) :
    (∀ j ∈ tks, (secs.getD j sec0).ids ≠ []) ∧
    (∀ j, j < secs.length → 0 ≤ (secs.getD j sec0).pid → (secs.getD j sec0).ids ≠ []) := by
  have hJ := extract_empty_pid db secs h1
  have hmain : ∀ j, j < secs.length → 0 ≤ (secs.getD j sec0).pid → (secs.getD j sec0).ids ≠ [] := by
    intro j hjlen hpid hempty
    have hm := hJ _ (getD_mem secs j sec0 hjlen) hempty
    rw [hm] at hpid
    exact absurd hpid (by norm_num)
  constructor
  · intro j hj
    obtain ⟨k, hk, hjk, hpid⟩ := trunksAux_mem secs secs 0 tks h2 j hj
    have hjk2 : j = k := by omega
    subst hjk2
    exact hmain j hk (by omega)
  · exact hmain

/-- C2 counterexample: on a soma plus two neurites table, `make_neurites`
returns 4 nodes, one per section, although section 3 has an empty point-id
sequence: an empty-section node does appear in the returned node
sequence, refuting the claim as stated. -/
theorem C2_counterexample :
    extract_sections dbC2 = some secsC2 ∧
    (make_neurites dbC2 secsC2).map (fun pr => (pr.1.length, pr.2.length)) = some (2, 4) ∧
    (secsC2.getD 3 sec0).ids = [] := by decide

/-- C2 witness: the amended theorem instantiated on the concrete soma
plus two neurites table. -/
theorem C2_no_tombstone_in_trees_witness :
    extract_sections dbC2 = some secsC2 ∧ neurite_trunks secsC2 = some [1, 2] ∧
    ((∀ j ∈ [1, 2], (secsC2.getD j sec0).ids ≠ []) ∧
     (∀ j, j < secsC2.length → 0 ≤ (secsC2.getD j sec0).pid → (secsC2.getD j sec0).ids ≠ [])) :=
  ⟨by decide, by decide,
   C2_no_tombstone_in_trees dbC2 secsC2 [1, 2] (by decide) (by decide)⟩

/-- C8 (amended): every point with child count at least 2 is a member of
the section end-point (boundary) set, and the scan closes the current
section upon reaching any row in that set; such a point is not in general
the last point of more than one Section. -/
theorem C8_branch_boundary (db : List Row) (i : Nat) (hi : i < db.length)
    (hc : 2 ≤ nChildren db ((db.getD i row0).id)) :
    (Int.ofNat i) ∈ secEndPts0 db ∧
    ∀ (st : ScanState) (pid t : Int), (Int.ofNat i) ∈ st.endPts →
      (scanCore (Int.ofNat i) pid t st).done.length = st.done.length + 1 := by
  constructor
  · have := endPtsAux_mem db db 0 i hi (by omega)
    simpa using this
  · intro st pid t hmem
    exact scanCore_done_succ (Int.ofNat i) pid t st hmem

/-- C8 witness: the branch point of the Y-branch table is a boundary
point and forces a section close. -/
theorem C8_branch_boundary_witness :
    2 < dbY.length ∧ 2 ≤ nChildren dbY ((dbY.getD 2 row0).id) ∧
    ((Int.ofNat 2) ∈ secEndPts0 dbY ∧
     ∀ (st : ScanState) (pid t : Int), (Int.ofNat 2) ∈ st.endPts →
       (scanCore (Int.ofNat 2) pid t st).done.length = st.done.length + 1) :=
  ⟨by decide, by decide, C8_branch_boundary dbY 2 (by decide) (by decide)⟩

/-- C8 counterexample: in the valid Y-branch table the branch point
(child count 2) is the last point of exactly one Section, refuting the
claim that it is the last point of more than one Section. -/
theorem C8_counterexample :
    UniqueIds dbY ∧ ParentsPrecede dbY ∧ PosIds dbY ∧
    nChildren dbY ((dbY.getD 2 row0).id) = 2 ∧
    (extract_sections dbY).map
      (fun secs => (secs.filter (fun s => s.ids.getLastD (-2) = 2)).length) = some 1 := by
  decide

/-- C9 counterexample: on the literal 5-row Y-branch table (no soma) the
pipeline produces 4 Sections, no trunks, and no neurites, refuting the
claimed 3 Sections and 1 trunk node. -/
theorem C9_counterexample :
    (extract_sections dbY).map List.length = some 4 ∧
    (extract_sections dbY).bind (fun secs => neurite_trunks secs) = some [] ∧
    (extract_sections dbY).bind
      (fun secs => (make_neurites dbY secs).map (fun pr => (pr.1.length, pr.2.length))) =
      some (0, 0) := by decide

/-- C9 (amended): the 5-row Y-branch table alone yields 4 Sections (3
non-empty) and no trunks; hung off a 2-point soma whose first point is a
branch boundary, the pipeline yields 6 Sections (5 non-empty), exactly
one trunk tree node with exactly two children, and, after the soma-strip
post action, a trunk neurite point sequence of length 5. -/
theorem C9_y_branch :
    extract_sections dbC9b = some secsC9b ∧
    secsC9b.length = 6 ∧
    (secsC9b.filter (fun s => s.ids ≠ [])).length = 5 ∧
    neurite_trunks secsC9b = some [2] ∧
    (make_neurites dbC9b secsC9b).map
      (fun pr => pr.1.map (fun tnode => tnode.children.length)) = some [2] ∧
    (make_neurites dbC9b secsC9b).map
      (fun pr => pr.1.map (fun tnode =>
        (neuritePointsOf (remove_soma_initial_point tnode)).map List.length)) =
      some [some 5] := by decide

/-- C10 (amended): for every non-empty data block with pairwise distinct
non-sentinel ids in which each point's parent row precedes it, if the
scan records no gap, the Section list returned by `extract_sections` ends
with a Section with empty ids and parent -1; the list is never empty and
its length exceeds the number of non-empty Sections by at least one. -/
theorem C10_trailing_section (db : List Row) (st : ScanState) (secs : List Sec)
    (hne : db ≠ []) (hu : UniqueIds db) (hpp : ParentsPrecede db) (hpos : PosIds db)
    (hscan : runScan db = some st) (hgaps : st.gaps = [])
    (hres : extract_sections db = some secs) :
    secs ≠ [] ∧ secs.getD (secs.length - 1) sec0 = sec0 ∧
    (secs.filter (fun s => s.ids ≠ [])).length < secs.length := by
  have hlen : 0 < db.length := List.length_pos.mpr hne
  have hchild : nChildren db ((db.getD (db.length - 1) row0).id) = 0 :=
    nChildren_last db hne hu hpp hpos
  have hend0 : (Int.ofNat (db.length - 1)) ∈ secEndPts0 db := by
    have := endPtsAux_mem db db 0 (db.length - 1) (by omega) (by rw [hchild]; omega)
    simpa using this
  have hsplit : db.dropLast ++ [db.getLast hne] = db := List.dropLast_append_getLast hne
  have hdl : db.dropLast.length = db.length - 1 := by
    rw [List.length_dropLast]
  have hlastD : db.getD (db.length - 1) row0 = db.getLast hne := by
    conv_lhs => rw [← hsplit]
    have hidx : (db.dropLast ++ [db.getLast hne]).length - 1 = db.dropLast.length := by
      simp
    rw [hidx]
    exact getD_append_len db.dropLast [] (db.getLast hne) row0
  -- decompose the scan at the last row
  have hscan2 : List.foldlM (scanStep (idMapFun db)) (initState db)
      (db.dropLast ++ [db.getLast hne]) = some st := by
    rw [hsplit]; exact hscan
  rw [foldlM_option_append] at hscan2
  cases hmid : List.foldlM (scanStep (idMapFun db)) (initState db) db.dropLast with
  | none => rw [hmid] at hscan2; simp at hscan2
  | some mid =>
    rw [hmid] at hscan2
    simp only [Option.some_bind] at hscan2
    obtain ⟨rid, pid, hrid, hpid2, hstc⟩ := scanStep_some hscan2
    have hridL : rid = Int.ofNat (db.length - 1) := by
      have h1 : idMapFun db ((db.getD (db.length - 1) row0).id) =
          some (Int.ofNat (db.length - 1)) := idMapFun_self db hu (db.length - 1) (by omega)
      rw [hlastD] at h1
      have := hrid.symm.trans h1
      exact Option.some.inj this
    have hmem : (Int.ofNat (db.length - 1)) ∈ mid.endPts := by
      refine foldlM_option_inv
        (P := fun s => (Int.ofNat (db.length - 1)) ∈ s.endPts)
        ?_ db.dropLast (initState db) mid hmid ?_
      · intro s a s' hf hP
        obtain ⟨r2, p2, _, _, rfl⟩ := scanStep_some hf
        exact scanCore_endPts_mono r2 p2 a.rtype _ s hP
      · simpa [initState] using hend0
    have hcase := scanCore_close_curr rid pid (db.getLast hne).rtype mid (by rw [hridL]; exact hmem)
    rw [← hstc] at hcase
    have hcurr : st.curr = sec0 := by
      rcases hcase with hcurr | hgapsc
      · exact hcurr
      · rw [hgaps] at hgapsc
        exact absurd hgapsc.symm (by simp)
    -- resolution part
    unfold extract_sections at hres
    rw [hscan] at hres
    simp at hres
    rw [hgaps] at hres
    have hinv : secs.length = st.done.length + 1 ∧ secs.getD st.done.length sec0 = sec0 := by
      refine foldlM_option_inv
        (P := fun l => l.length = st.done.length + 1 ∧ l.getD st.done.length sec0 = sec0)
        ?_ _ (st.done ++ [st.curr]) secs hres ?_
      · intro l a l' hf hP
        obtain ⟨s2, rfl, hs2⟩ := resolveStep_nil_gaps st.ps l l' a hf
        obtain ⟨hl1, hl2⟩ := hP
        refine ⟨by rw [List.length_set]; exact hl1, ?_⟩
        by_cases hja : a = st.done.length
        · rw [hja] at hs2 ⊢
          have hids : (l.getD st.done.length sec0).ids = [] := by rw [hl2]; rfl
          have hlt : st.done.length < l.length := by omega
          rw [hs2 hids, hl2, getD_set_self l st.done.length sec0 sec0 hlt]
        · rw [getD_set_ne l a st.done.length s2 sec0 hja]
          exact hl2
      · constructor
        · simp
        · rw [getD_append_len st.done [] st.curr sec0]
          exact hcurr
    obtain ⟨hlen2, hlast2⟩ := hinv
    have hlast3 : secs.getD (secs.length - 1) sec0 = sec0 := by
      rw [hlen2]
      simpa using hlast2
    refine ⟨?_, hlast3, ?_⟩
    · intro hnil
      rw [hnil] at hlen2
      simp at hlen2
    · refine length_filter_lt _ secs _ (getD_mem secs (secs.length - 1) sec0 (by omega)) ?_
      rw [hlast3]
      rfl

/-- C10 witness: the trailing placeholder section on the soma-only
table. -/
theorem C10_trailing_section_witness :
    dbS ≠ [] ∧ UniqueIds dbS ∧ ParentsPrecede dbS ∧ PosIds dbS ∧
    runScan dbS = some stS ∧ stS.gaps = [] ∧ extract_sections dbS = some secsS ∧
    (secsS ≠ [] ∧ secsS.getD (secsS.length - 1) sec0 = sec0 ∧
     (secsS.filter (fun s => s.ids ≠ [])).length < secsS.length) :=
  ⟨by decide, by decide, by decide, by decide, by decide, by decide, by decide,
   C10_trailing_section dbS stS secsS (by decide) (by decide) (by decide) (by decide)
     (by decide) (by decide) (by decide)⟩

/-- C10 counterexample: on the valid discontinuity table (parents precede
their children) the returned Section list ends with the merged section
(ids 0,1,2,4 and parent 0), not with an empty Section, refuting the claim
as stated. -/
theorem C10_counterexample :
    dbG ≠ [] ∧ UniqueIds dbG ∧ ParentsPrecede dbG ∧ PosIds dbG ∧
    (extract_sections dbG).map (fun secs => secs.getD (secs.length - 1) sec0) =
      some ⟨[0, 1, 2, 4], 3, 0⟩ := by decide
